import Mathlib

/-!
# Verification of the bookworm_languages translation and playback core

Shallow embedding of the chunked-translation pipeline
(`src/src/translation-service.ts`, first `TranslationService` version) and the
client-side playback scheduler (`src/unnamed/part_000`).

JavaScript strings are modelled as `List Char` (`Str`); `String.length`,
`split`, `includes`, `trim` and `+` on JS strings become the corresponding
executable list functions below.  Line/character counts agree with the
source for the ASCII content the invariants are about.
-/

namespace Bookworm

/-- JS strings modelled as character lists. -/
abbrev Str := List Char

/-- `content.split('\n')` from `translateFile` (line 112): split on single
newline, never returns an empty list, keeps empty segments. -/
def splitNL : List Char → List (List Char)
  | [] => [[]]
  | c :: rest =>
    if c = '\n' then [] :: splitNL rest
    else (c :: (splitNL rest).headD []) :: (splitNL rest).tail

/-- `textOnly.split('\n\n')` from `translateChunk` (lines 220, 228): split on a
double newline, scanning left to right, non-overlapping. -/
def splitNN : List Char → List (List Char)
  | [] => [[]]
  | [c] => [[c]]
  | c :: c2 :: rest =>
    if c = '\n' ∧ c2 = '\n' then [] :: splitNN rest
    else (c :: (splitNN (c2 :: rest)).headD []) :: (splitNN (c2 :: rest)).tail

/-- `paragraphs.join('\n\n')` from `translateChunk` (line 210). -/
def joinNN : List Str → Str
  | [] => []
  | [p] => p
  | p :: ps => p ++ '\n' :: '\n' :: joinNN ps

/-- Whether a string contains a double newline (the separator), used to
state when the join/split round trip is the identity. -/
def hasNN : Str → Bool
  | [] => false
  | [_] => false
  | c :: c2 :: rest => if c = '\n' ∧ c2 = '\n' then true else hasNN (c2 :: rest)

/-- JS `trim()`: strip leading and trailing whitespace
(used on `translatedLines[translatedIndex].trim()`, line 259). -/
def isWS (c : Char) : Bool := c = ' ' ∨ c = '\t' ∨ c = '\n' ∨ c = '\r'

/-- JS `trim()` on a character-list string. -/
def trimStr (s : Str) : Str :=
  ((s.dropWhile isWS).reverse.dropWhile isWS).reverse

/-- JS `s.includes(pat)` (used for the already-translated marker check,
line 103). -/
def includesSub (s pat : Str) : Bool :=
  if pat.isPrefixOf s then true
  else
    match s with
    | [] => false
    | _ :: rest => includesSub rest pat

/-- The previously-translated marker checked at line 103 of
`translation-service.ts`: `'<p class="translated">'`. -/
def marker : Str := "<p class=\"translated\">".data

/-- `translatedContentCheck.includes('<p class="translated">')` (line 103). -/
def hasMarkerB (content : Str) : Bool := includesSub content marker

/-! ## The chunking loop of `translateFile` (lines 112–157)

The inner `while` (lines 124–136) greedily accumulates whole lines into
`chunk` while `chunk.length + (line.length + 1) <= 4700`; the accumulated
length is tracked by `acc` here, a chunk is returned as its list of lines
together with the unconsumed rest. -/

def chunkTakeAux (acc : Nat) : List Str → List Str × List Str
  | [] => ([], [])
  | l :: rest =>
    if 4700 < acc + (l.length + 1) then ([], l :: rest)
    else
      (l :: (chunkTakeAux (acc + (l.length + 1)) rest).1,
        (chunkTakeAux (acc + (l.length + 1)) rest).2)

/-- Byte size of a chunk: the code's `chunk.length`, where the chunk string
is the concatenation of `line + '\n'` for each line (line 126/134). -/
def chunkSize (c : List Str) : Nat := (c.map (fun l => l.length + 1)).sum

/-- The chunk string itself, `chunk` in the code. -/
def chunkStr (c : List Str) : Str := (c.map (fun l => l ++ ['\n'])).flatten

/-- The outer `while (i < lines.length)` loop of `translateFile`
(lines 115–157): `i` is the absolute line index; `if (i > 2222) break`
(line 116) abandons the remaining lines; each iteration builds one chunk.
The source loop has no fuel: when a chunk comes back empty the JS loop
re-enters with the same `i` forever, which this embedding reports as `none`
(fuel exhausted for every fuel value). -/
def chunkLoopAux : Nat → Nat → List Str → Option (List (List Str))
  | 0, _, _ => none
  | fuel + 1, i, lines =>
    if lines = [] then some []
    else if 2222 < i then some []
    else
      match chunkLoopAux fuel (i + (chunkTakeAux 0 lines).1.length)
          (chunkTakeAux 0 lines).2 with
      | none => none
      | some cs => some ((chunkTakeAux 0 lines).1 :: cs)

/-- The chunk sequence `translateFile` feeds to `translateChunk`:
`lines.length + 1` units of fuel suffice for every terminating run, since
every productive iteration consumes at least one line. -/
def chunks (lines : List Str) : Option (List (List Str)) :=
  chunkLoopAux (lines.length + 1) 0 lines

/-! ## `translateChunk` (lines 194–271)

Cheerio parsing (`$('head').html()`, the `$('p')` text extraction,
lines 200–205) is an external HTML parser and enters the model as data: a
chunk arrives here as its extracted `header` string and ordered `paragraphs`
text list.  Everything after the extraction — the join, the skip test, the
split of the translation, and the interleaving `while` loop — is embedded
from the source. -/

/-- The reassembly `while` loop of `translateChunk` (lines 255–268).
`originalIndex` and `translatedIndex` advance in lockstep, so a single
index `k` tracks both; the guard `originalIndex < 1000` is represented by
structural fuel that starts at `1000 - k`.  Each iteration emits the pair
(`translatedLines[k].trim()`, `originalLines[k]`), reading `''` past the
end of either list, exactly as the `?:` defaults at lines 258–259 do. -/
def mergeLoopF (o t : List Str) : Nat → Nat → List (Str × Str)
  | _, 0 => []
  | k, fuel + 1 =>
    if k < o.length ∨ k < t.length then
      (trimStr (t.getD k []), o.getD k []) :: mergeLoopF o t (k + 1) fuel
    else []

/-- The full run of the reassembly loop, starting at index 0 with the
`< 1000` bound. -/
def mergePairs (o t : List Str) : List (Str × Str) := mergeLoopF o t 0 1000

/-- One emitted pair (lines 261–264): a `<p class="translated">` element
holding the translated text, immediately followed by the italic original
paragraph element. -/
def renderPair (p : Str × Str) : Str :=
  marker ++ p.1 ++ "</p>\n".data
    ++ "<p style=\"font-style: italic;\">".data ++ p.2 ++ "</p>\n\n".data

/-- `returnText` accumulation over the emitted pairs. -/
def renderPairs : List (Str × Str) → Str
  | [] => []
  | p :: rest => renderPair p ++ renderPairs rest

/-- PART 1 of `translateChunk` (lines 244–252): the document scaffold is
re-attached only when a header was extracted (`if (header)`). -/
def renderHeader (header : Str) : Str :=
  if header = [] then []
  else
    "<?xml version='1.0' encoding='utf-8'?>\n".data
      ++ "<html xmlns=\"http://www.w3.org/1999/xhtml\">\n".data
      ++ "<head>\n".data ++ header ++ "\n</head>\n".data
      ++ "<body class=\"calibre\">\n".data

/-- The pair sequence of `translateChunk` after cheerio extraction
(lines 210–268): join the paragraph texts with a double newline, skip the
translation call when the join splits back into at most one segment
(lines 220–225), split the translation on the double newline, and run the
reassembly loop. -/
def chunkPairs (paragraphs : List Str) (tr : Str → Str) : List (Str × Str) :=
  let textOnly := joinNN paragraphs
  let originalLines := splitNN textOnly
  let translatedChunk := if originalLines.length ≤ 1 then [] else tr textOnly
  let translatedLines := splitNN translatedChunk
  mergePairs originalLines translatedLines

/-- The full `translateChunk` result: rendered markup, and whether
`translateText` was invoked (false exactly when the skip branch of
lines 221–223 was taken). -/
def translateChunkModel (header : Str) (paragraphs : List Str)
    (tr : Str → Str) : Str × Bool :=
  (renderHeader header ++ renderPairs (chunkPairs paragraphs tr),
    decide (1 < (splitNN (joinNN paragraphs)).length))

/-! ## `translateFile` (lines 93–185)

`extract` abstracts the cheerio step of `translateChunk`, mapping a chunk
string to its extracted `(header, paragraphs)`; `tr` abstracts the
translation capability `translateText`. -/

/-- Result of one `translateFile` run: the early-return skip (line 105) or
the content written back in place (line 167). -/
inductive FileRun where
  | skipped
  | written (out : Str)
deriving DecidableEq

/-- `translateFile`: marker check (line 103), the chunking loop, one
`translateChunk` per chunk appended to `translatedContent` (line 145), and
the closing tags appended at line 159.  `none` models the source loop
never terminating. -/
def translateFileModel (extract : Str → Str × List Str) (tr : Str → Str)
    (content : Str) : Option FileRun :=
  if hasMarkerB content then some .skipped
  else
    match chunks (splitNL content) with
    | none => none
    | some cs =>
      some (.written
        ((cs.map (fun c =>
          (translateChunkModel (extract (chunkStr c)).1 (extract (chunkStr c)).2
            tr).1)).flatten
          ++ "</body>\n</html>".data))

/-- File content on disk after a `translateFile` run: unchanged on skip,
replaced on write, undefined when the run never terminates. -/
def contentAfter (extract : Str → Str × List Str) (tr : Str → Str)
    (content : Str) : Option Str :=
  match translateFileModel extract tr content with
  | some .skipped => some content
  | some (.written out) => some out
  | none => none

/-! ## `translateEPUB` step 5 and 6 (lines 557–592)

Per-file processing is abstracted to its observable outcome: `.ok` when
`translateFile` returns (translated or skipped), `.error msg` when it
throws.  The `try { for ... } catch` places the handler outside the loop,
so the first throw leaves the loop. -/

/-- The step-5 `for` loop with its surrounding `try/catch`
(lines 560–575), started at file index `i`.  Returns the indices of files
on which `translateFile` was invoked, the indices that completed, and the
recorded `erroredOut` message. -/
def translationLoopAux (i : Nat) :
    List (Except String Unit) → List Nat × List Nat × Option String
  | [] => ([], [], none)
  | .ok _ :: rest =>
    (i :: (translationLoopAux (i + 1) rest).1,
      i :: (translationLoopAux (i + 1) rest).2.1,
      (translationLoopAux (i + 1) rest).2.2)
  | .error m :: _ => ([i], [], some ("Error during file translation: " ++ m))

/-- Observable outcome of `translateEPUB` from step 5 on. -/
structure EpubRun where
  attempted : List Nat
  completed : List Nat
  repackaged : Bool
  result : Except String Unit

/-- `translateEPUB` steps 5–6 (lines 557–592): run the per-file loop,
repackage with 7zip unconditionally (step 6 is outside the catch), and only
then re-raise the recorded error (lines 590–592).  Modelled with the
repackaging call itself succeeding. -/
def translateEPUBModel (outcomes : List (Except String Unit)) : EpubRun :=
  { attempted := (translationLoopAux 0 outcomes).1
    completed := (translationLoopAux 0 outcomes).2.1
    repackaged := true
    result := match (translationLoopAux 0 outcomes).2.2 with
      | some m => .error m
      | none => .ok () }

/-! ## Playback scheduler (`src/unnamed/part_000`) -/

/-- One entry of `paragraphData`, the server-provided paragraph stream:
text plus language tag (`'en'` = source, `'fr'` = target/translated). -/
structure PItem where
  text : Str
  lang : Str
deriving DecidableEq, Inhabited

/-- One entry of the playback `queue` built in `speakParagraphs`
(lines 467–471): text, language, and `idx`, the index into the unfiltered
`paragraphData` stream (the `originalIndex` of the spec). -/
structure QItem where
  text : Str
  lang : Str
  idx : Nat
deriving DecidableEq, Inhabited

/-- Queue construction in `speakParagraphs` (lines 466–474): map
`paragraphData` to items carrying their unfiltered index, then filter by
the visibility setting (`'en'` / `'fr'` keep only that language; anything
else keeps all). -/
def buildQueue (paragraphData : List PItem) (val : Str) : List QItem :=
  let items := paragraphData.enum.map (fun p => QItem.mk p.2.text p.2.lang p.1)
  if val = "en".data then items.filter (fun it => it.lang = "en".data)
  else if val = "fr".data then items.filter (fun it => it.lang = "fr".data)
  else items

/-- Mutable scheduler state touched by the per-utterance callbacks:
`queue`, `currentIndex` (starts `-1`, `1000` is the end sentinel), the
progress value last sent to `/save-progress`, and the wake lock. -/
structure TtsState where
  queue : List QItem
  currentIndex : Int
  saved : Option Nat
  wakeLock : Bool
deriving DecidableEq

/-- The `onend` handler (lines 557–574): save `item.idx + 1` to the
server, then either finish (clear playing state, set `currentIndex` to
`1000`, release the wake lock) when `currentIndex + 1 >= queue.length`, or
advance `currentIndex` and speak the next item. -/
def handleEnd (st : TtsState) (itemIdx : Nat) : TtsState :=
  let st1 := { st with saved := some (itemIdx + 1) }
  if (st1.queue.length : Int) ≤ st1.currentIndex + 1 then
    { st1 with currentIndex := 1000, wakeLock := false }
  else
    { st1 with currentIndex := st1.currentIndex + 1 }

/-- The `onerror` handler (lines 575–588): identical advancement, but no
`saveProgressToServer` call (and no wake-lock release at end of queue). -/
def handleError (st : TtsState) (_itemIdx : Nat) : TtsState :=
  if (st.queue.length : Int) ≤ st.currentIndex + 1 then
    { st with currentIndex := 1000 }
  else
    { st with currentIndex := st.currentIndex + 1 }

/-- `markPlaying` (lines 487–514): look up the paragraph; only when its
language is `'fr'` clear every `playing` highlight, highlight this
paragraph, and scroll (the hash assignment).  Returns the new highlight
flags (one per paragraph) and whether the highlight-and-scroll side effect
fired. -/
def markPlaying (paragraphData : List PItem) (playing : List Bool)
    (idx : Nat) : List Bool × Bool :=
  if idx < paragraphData.length then
    if (paragraphData.getD idx default).lang = "fr".data then
      ((playing.map (fun _ => false)).set idx true, true)
    else (playing, false)
  else (playing, false)

/-- The window `load` handler's restore step (lines 694–715): when
`0 < savedParagraphIndex < paras.length`, scroll the saved paragraph into
view and add the `playing` highlight — with no language check. -/
def loadRestore (paragraphData : List PItem) (playing : List Bool)
    (saved : Nat) : List Bool × Bool :=
  if 0 < saved ∧ saved < paragraphData.length then
    (playing.set saved true, true)
  else (playing, false)


/-! ## Library lemmas about the string model -/

theorem splitNL_ne_nil : ∀ s : Str, splitNL s ≠ [] := by
  intro s
  cases s with
  | nil => simp [splitNL]
  | cons c rest =>
    rw [splitNL]
    split <;> simp

theorem splitNN_ne_nil : ∀ s : Str, splitNN s ≠ [] := by
  intro s
  match s with
  | [] => simp [splitNN]
  | [c] => simp [splitNN]
  | c :: c2 :: rest =>
    rw [splitNN]
    split <;> simp

theorem hasNN_cons_false {c c2 : Char} {rest : Str}
    (h : hasNN (c :: c2 :: rest) = false) :
    ¬(c = '\n' ∧ c2 = '\n') ∧ hasNN (c2 :: rest) = false := by
  rw [hasNN] at h
  split at h
  · exact absurd h (by simp)
  · exact ⟨by assumption, h⟩

theorem splitNN_single : ∀ p : Str, hasNN p = false → splitNN p = [p] := by
  intro p
  match p with
  | [] => intro _; rfl
  | [c] => intro _; rfl
  | c :: c2 :: rest =>
    intro h
    obtain ⟨hne, hrest⟩ := hasNN_cons_false h
    rw [splitNN, if_neg hne, splitNN_single (c2 :: rest) hrest]
    rfl

theorem splitNN_sep : ∀ (p s : Str), hasNN p = false → p.getLast? ≠ some '\n' →
    splitNN (p ++ '\n' :: '\n' :: s) = p :: splitNN s := by
  intro p s
  match p with
  | [] =>
    intro _ _
    rw [List.nil_append, splitNN, if_pos ⟨rfl, by simp⟩]
  | [c] =>
    intro _ hlast
    have hc : ¬ c = '\n' := by
      simpa [List.getLast?] using hlast
    show splitNN (c :: '\n' :: '\n' :: s) = [c] :: splitNN s
    rw [splitNN, if_neg (by simp [hc]), splitNN, if_pos ⟨rfl, by simp⟩]
    simp
  | c :: c2 :: p' =>
    intro h hlast
    obtain ⟨hne, hrest⟩ := hasNN_cons_false h
    have hlast2 : (c2 :: p').getLast? ≠ some '\n' := by
      simpa [List.getLast?_cons_cons] using hlast
    have ih := splitNN_sep (c2 :: p') s hrest hlast2
    show splitNN (c :: (c2 :: p' ++ '\n' :: '\n' :: s)) = (c :: c2 :: p') :: splitNN s
    rw [show c :: (c2 :: p' ++ '\n' :: '\n' :: s) = c :: c2 :: (p' ++ '\n' :: '\n' :: s) by simp,
      splitNN, if_neg hne]
    have : splitNN (c2 :: (p' ++ '\n' :: '\n' :: s)) = (c2 :: p') :: splitNN s := ih
    rw [this]
    simp

theorem splitNN_joinNN : ∀ ps : List Str, ps ≠ [] →
    (∀ p ∈ ps, hasNN p = false ∧ p.getLast? ≠ some '\n') →
    splitNN (joinNN ps) = ps := by
  intro ps
  match ps with
  | [] => intro h; exact absurd rfl h
  | [p] =>
    intro _ hall
    rw [joinNN]
    exact splitNN_single p (hall p (by simp)).1
  | p :: q :: ps' =>
    intro _ hall
    rw [show joinNN (p :: q :: ps') = p ++ '\n' :: '\n' :: joinNN (q :: ps') from rfl]
    rw [splitNN_sep p (joinNN (q :: ps')) (hall p (by simp)).1 (hall p (by simp)).2]
    rw [splitNN_joinNN (q :: ps') (by simp) (fun r hr => hall r (by simp [hr]))]

theorem includesSub_correct : ∀ s pat : Str,
    includesSub s pat = true ↔ pat <:+: s := by
  intro s pat
  match s with
  | [] =>
    rw [includesSub]
    constructor
    · intro h
      split at h
      · next hp => exact (List.isPrefixOf_iff_prefix.mp hp).isInfix
      · exact absurd h (by simp)
    · intro h
      have hnil : pat = [] := List.infix_nil.mp h
      subst hnil
      rw [if_pos (by simp [List.isPrefixOf_iff_prefix])]
  | c :: rest =>
    rw [includesSub]
    constructor
    · intro h
      split at h
      · next hp => exact (List.isPrefixOf_iff_prefix.mp hp).isInfix
      · exact ((includesSub_correct rest pat).mp h).trans (List.suffix_cons c rest).isInfix
    · intro h
      rcases List.infix_cons_iff.mp h with hp | hi
      · rw [if_pos (List.isPrefixOf_iff_prefix.mpr hp)]
      · split
        · rfl
        · exact (includesSub_correct rest pat).mpr hi

theorem hasMarkerB_iff (content : Str) :
    hasMarkerB content = true ↔ marker <:+: content :=
  includesSub_correct content marker

/-! ## Lemmas about the reassembly loop -/

theorem mergeLoopF_length (o t : List Str) :
    ∀ fuel k, (mergeLoopF o t k fuel).length = min fuel (max o.length t.length - k) := by
  intro fuel
  induction fuel with
  | zero => intro k; simp [mergeLoopF]
  | succ n ih =>
    intro k
    rw [mergeLoopF]
    split
    · next h => simp only [List.length_cons, ih (k + 1)]; omega
    · next h => simp only [List.length_nil]; omega

theorem mergePairs_length (o t : List Str) :
    (mergePairs o t).length = min 1000 (max o.length t.length) := by
  simpa using mergeLoopF_length o t 1000 0

theorem mergeLoopF_getD (o t : List Str) :
    ∀ fuel k j, j < (mergeLoopF o t k fuel).length →
      (mergeLoopF o t k fuel).getD j ([], []) =
        (trimStr (t.getD (k + j) []), o.getD (k + j) []) := by
  intro fuel
  induction fuel with
  | zero => intro k j h; simp [mergeLoopF] at h
  | succ n ih =>
    intro k j h
    rw [mergeLoopF] at h ⊢
    by_cases hc : k < o.length ∨ k < t.length
    · simp only [if_pos hc] at h ⊢
      cases j with
      | zero => simp
      | succ j' =>
        simp only [List.getD_cons_succ]
        rw [ih (k + 1) j' (by simpa using h)]
        ring_nf
    · simp only [if_neg hc] at h
      simp at h

theorem mergePairs_getD (o t : List Str) (j : Nat)
    (h : j < (mergePairs o t).length) :
    (mergePairs o t).getD j ([], []) = (trimStr (t.getD j []), o.getD j []) := by
  simpa using mergeLoopF_getD o t 1000 0 j h

/-! ## Lemmas about the chunking loop -/

theorem chunkTakeAux_append : ∀ (acc : Nat) (ls : List Str),
    (chunkTakeAux acc ls).1 ++ (chunkTakeAux acc ls).2 = ls := by
  intro acc ls
  induction ls generalizing acc with
  | nil => simp [chunkTakeAux]
  | cons l rest ih =>
    rw [chunkTakeAux]
    split
    · simp
    · simpa using ih (acc + (l.length + 1))

theorem chunkTakeAux_size : ∀ (acc : Nat) (ls : List Str), acc ≤ 4700 →
    acc + chunkSize (chunkTakeAux acc ls).1 ≤ 4700 := by
  intro acc ls
  induction ls generalizing acc with
  | nil => intro h; simpa [chunkTakeAux, chunkSize] using h
  | cons l rest ih =>
    intro h
    rw [chunkTakeAux]
    split
    · next hgt => simpa [chunkSize] using h
    · next hle =>
      have h2 : acc + (l.length + 1) ≤ 4700 := by omega
      have := ih (acc + (l.length + 1)) h2
      simp only [chunkSize, List.map_cons, List.sum_cons] at *
      omega

theorem chunkTakeAux_cons_fits (l : Str) (rest : List Str) (h : l.length < 4700) :
    chunkTakeAux 0 (l :: rest) =
      (l :: (chunkTakeAux (l.length + 1) rest).1, (chunkTakeAux (l.length + 1) rest).2) := by
  rw [chunkTakeAux, if_neg (by omega)]
  simp

theorem chunkTakeAux_stuck (l : Str) (rest : List Str) (h : 4700 ≤ l.length) :
    chunkTakeAux 0 (l :: rest) = ([], l :: rest) := by
  rw [chunkTakeAux, if_pos (by omega)]

theorem chunkLoopAux_stuck : ∀ (fuel i : Nat) (l : Str) (rest : List Str),
    i ≤ 2222 → 4700 ≤ l.length →
    chunkLoopAux fuel i (l :: rest) = none := by
  intro fuel
  induction fuel with
  | zero => intro i l rest _ _; rfl
  | succ n ih =>
    intro i l rest hi hl
    rw [chunkLoopAux]
    rw [if_neg (by simp), if_neg (by omega)]
    simp only [chunkTakeAux_stuck l rest hl, List.length_nil, Nat.add_zero]
    rw [ih i l rest hi hl]

theorem chunkLoopAux_complete : ∀ (fuel i : Nat) (lines : List Str),
    lines.length < fuel → i + lines.length ≤ 2223 →
    (∀ l ∈ lines, l.length < 4700) →
    ∃ cs, chunkLoopAux fuel i lines = some cs ∧ cs.flatten = lines ∧
      ∀ c ∈ cs, chunkSize c ≤ 4700 := by
  intro fuel
  induction fuel with
  | zero => intro i lines h; omega
  | succ n ih =>
    intro i lines hfuel hbound hlen
    match lines with
    | [] => exact ⟨[], by rw [chunkLoopAux]; simp, by simp, by simp⟩
    | l :: rest =>
      have hi : ¬ 2222 < i := by simp at hbound ⊢; omega
      rw [chunkLoopAux, if_neg (by simp), if_neg hi]
      have hfit := chunkTakeAux_cons_fits l rest (hlen l (by simp))
      have happ : (chunkTakeAux 0 (l :: rest)).1 ++ (chunkTakeAux 0 (l :: rest)).2 = l :: rest :=
        chunkTakeAux_append 0 (l :: rest)
      have hclen : 1 ≤ (chunkTakeAux 0 (l :: rest)).1.length := by rw [hfit]; simp
      have hlens : (chunkTakeAux 0 (l :: rest)).1.length + (chunkTakeAux 0 (l :: rest)).2.length
          = rest.length + 1 := by
        have := congrArg List.length happ
        simpa using this
      have hrlen : (chunkTakeAux 0 (l :: rest)).2.length < n := by
        simp at hfuel
        omega
      have hrbound : (i + (chunkTakeAux 0 (l :: rest)).1.length)
          + (chunkTakeAux 0 (l :: rest)).2.length ≤ 2223 := by
        simp at hbound
        omega
      have hrmem : ∀ x ∈ (chunkTakeAux 0 (l :: rest)).2, x.length < 4700 := by
        intro x hx
        exact hlen x (by rw [← happ]; exact List.mem_append_right _ hx)
      obtain ⟨cs2, hcs2, hflat, hsize⟩ :=
        ih (i + (chunkTakeAux 0 (l :: rest)).1.length) (chunkTakeAux 0 (l :: rest)).2
          hrlen hrbound hrmem
      refine ⟨(chunkTakeAux 0 (l :: rest)).1 :: cs2, ?_, ?_, ?_⟩
      · rw [hcs2]
      · simp [hflat, happ]
      · intro x hx
        rcases List.mem_cons.mp hx with hx1 | hx2
        · subst hx1
          simpa using chunkTakeAux_size 0 (l :: rest) (by omega)
        · exact hsize x hx2

theorem chunkLoopAux_coverage : ∀ (fuel i : Nat) (lines : List Str)
    (cs : List (List Str)), chunkLoopAux fuel i lines = some cs →
    cs.flatten = lines.take cs.flatten.length ∧
    (cs.flatten.length = lines.length ∨ 2223 ≤ i + cs.flatten.length) ∧
    min 2223 (i + lines.length) ≤ i + cs.flatten.length := by
  intro fuel
  induction fuel with
  | zero => intro i lines cs h; exact absurd h (by rw [chunkLoopAux]; simp)
  | succ n ih =>
    intro i lines cs h
    rw [chunkLoopAux] at h
    by_cases hnil : lines = []
    · rw [if_pos hnil] at h
      obtain rfl : cs = [] := by simpa using h.symm
      subst hnil
      simp
    · rw [if_neg hnil] at h
      by_cases hbrk : 2222 < i
      · rw [if_pos hbrk] at h
        obtain rfl : cs = [] := by simpa using h.symm
        refine ⟨by simp, Or.inr (by simp; omega), ?_⟩
        simp only [List.flatten_nil, List.length_nil, Nat.add_zero]
        omega
      · rw [if_neg hbrk] at h
        cases hrec : chunkLoopAux n (i + (chunkTakeAux 0 lines).1.length)
            (chunkTakeAux 0 lines).2 with
        | none => rw [hrec] at h; exact absurd h (by simp)
        | some cs2 =>
          rw [hrec] at h
          obtain rfl : cs = (chunkTakeAux 0 lines).1 :: cs2 := by simpa using h.symm
          obtain ⟨ht, hd, hm⟩ := ih _ _ cs2 hrec
          set C := (chunkTakeAux 0 lines).1 with hCdef
          set R := (chunkTakeAux 0 lines).2 with hRdef
          have happ : C ++ R = lines := chunkTakeAux_append 0 lines
          have hlen2 : lines.length = C.length + R.length := by
            rw [← happ]
            simp
          refine ⟨?_, ?_, ?_⟩
          · simp only [List.flatten_cons]
            rw [← happ, List.take_append_eq_append_take, List.length_append,
              List.take_of_length_le (l := C) (by omega),
              show C.length + cs2.flatten.length - C.length = cs2.flatten.length by omega,
              ← ht]
          · rcases hd with h1 | h2
            · refine Or.inl ?_
              simp only [List.flatten_cons, List.length_append]
              omega
            · refine Or.inr ?_
              simp only [List.flatten_cons, List.length_append]
              omega
          · simp only [List.flatten_cons, List.length_append]
            omega


/-! ## Step equations and concrete chunking runs

The gate of each step equation keeps the fuel argument symbolic, so the
equations apply to runs on concrete inputs without deep kernel reduction. -/

theorem chunkLoopAux_nilE (fuel i : Nat) (h : fuel ≠ 0) :
    chunkLoopAux fuel i [] = some [] := by
  cases fuel with
  | zero => exact absurd rfl h
  | succ n => rw [chunkLoopAux, if_pos rfl]

theorem chunkLoopAux_breakE (fuel i : Nat) (lines : List Str) (h : fuel ≠ 0)
    (h1 : lines ≠ []) (h2 : 2222 < i) :
    chunkLoopAux fuel i lines = some [] := by
  cases fuel with
  | zero => exact absurd rfl h
  | succ n => rw [chunkLoopAux, if_neg h1, if_pos h2]

theorem chunkLoopAux_step (fuel i : Nat) (lines : List Str) (h1 : lines ≠ [])
    (h2 : ¬ 2222 < i) :
    chunkLoopAux (fuel + 1) i lines =
      match chunkLoopAux fuel (i + (chunkTakeAux 0 lines).1.length)
          (chunkTakeAux 0 lines).2 with
      | none => none
      | some cs => some ((chunkTakeAux 0 lines).1 :: cs) := by
  rw [chunkLoopAux, if_neg h1, if_neg h2]

theorem chunkTakeAux_repl_all : ∀ (m acc : Nat), acc + 2 * m ≤ 4700 →
    chunkTakeAux acc (List.replicate m ['a']) = (List.replicate m ['a'], []) := by
  intro m
  induction m with
  | zero => intro acc _; rfl
  | succ k ih =>
    intro acc h
    rw [List.replicate_succ, chunkTakeAux, if_neg (by simp; omega)]
    rw [show (['a'] : Str).length + 1 = 2 from rfl] at *
    rw [ih (acc + 2) (by omega)]

theorem chunkTakeAux_repl_part : ∀ (m k acc : Nat), acc + 2 * m ≤ 4700 →
    4700 < acc + 2 * m + 2 →
    chunkTakeAux acc (List.replicate (m + k) ['a'])
      = (List.replicate m ['a'], List.replicate k ['a']) := by
  intro m
  induction m with
  | zero =>
    intro k acc h1 h2
    cases k with
    | zero => rfl
    | succ k2 =>
      rw [Nat.zero_add, List.replicate_succ, chunkTakeAux, if_pos (by simp; omega)]
      simp
  | succ m2 ih =>
    intro k acc h1 h2
    rw [show m2 + 1 + k = (m2 + k) + 1 by omega, List.replicate_succ, chunkTakeAux,
      if_neg (by simp; omega)]
    rw [show (['a'] : Str).length + 1 = 2 from rfl]
    rw [ih k (acc + 2) (by omega) (by omega)]
    simp [List.replicate_succ]

theorem chunks_repl_2225 :
    chunks (List.replicate 2225 ['a']) = some [List.replicate 2225 ['a']] := by
  rw [chunks, chunkLoopAux_step _ _ _
    (List.ne_nil_of_length_pos (by rw [List.length_replicate]; norm_num)) (by norm_num)]
  rw [chunkTakeAux_repl_all 2225 0 (by norm_num)]
  simp only [List.length_replicate, Nat.add_zero]
  rw [chunkLoopAux_nilE _ _ (by simp)]

theorem chunks_repl_2351 :
    chunks (List.replicate 2351 ['a']) = some [List.replicate 2350 ['a']] := by
  rw [chunks, chunkLoopAux_step _ _ _
    (List.ne_nil_of_length_pos (by rw [List.length_replicate]; norm_num)) (by norm_num)]
  rw [show (2351 : Nat) = 2350 + 1 by norm_num,
    chunkTakeAux_repl_part 2350 1 0 (by norm_num) (by norm_num)]
  simp only [List.length_replicate, Nat.zero_add, Nat.add_zero]
  rw [chunkLoopAux_breakE _ _ _ (by simp)
    (List.ne_nil_of_length_pos (by rw [List.length_replicate]; norm_num)) (by norm_num)]

/-! ## Lemmas about the orchestrator loop -/

theorem translationLoopAux_allOk : ∀ (pre : List (Except String Unit))
    (rest : List (Except String Unit)) (i : Nat),
    (∀ o ∈ pre, o = .ok ()) →
    translationLoopAux i (pre ++ rest) =
      (List.range' i pre.length ++ (translationLoopAux (i + pre.length) rest).1,
       List.range' i pre.length ++ (translationLoopAux (i + pre.length) rest).2.1,
       (translationLoopAux (i + pre.length) rest).2.2) := by
  intro pre
  induction pre with
  | nil => intro rest i _; simp [List.range']
  | cons o pre2 ih =>
    intro rest i hall
    have ho : o = .ok () := hall o (by simp)
    subst ho
    rw [List.cons_append, translationLoopAux]
    rw [ih rest (i + 1) (fun x hx => hall x (by simp [hx]))]
    simp only [List.length_cons, List.range'_succ, List.cons_append]
    rw [show i + (pre2.length + 1) = i + 1 + pre2.length by omega]

theorem translationLoopAux_error (i : Nat) (m : String)
    (post : List (Except String Unit)) :
    translationLoopAux i (.error m :: post)
      = ([i], [], some ("Error during file translation: " ++ m)) := by
  rw [translationLoopAux]

/-! # The claims -/

/-- C6: for every queue item at original paragraph index i, the completion
handler `onend` persists progress i + 1 (the next paragraph) and then
advances the cursor, while the error handler `onerror` advances the cursor
identically but persists nothing, so after an utterance error the saved
progress is unchanged from before that paragraph started. -/
theorem c6_onend_persists_onerror_does_not (st : TtsState) (i : Nat) :
    (handleEnd st i).saved = some (i + 1) ∧
    (handleError st i).saved = st.saved ∧
    (handleError st i).currentIndex = (handleEnd st i).currentIndex := by
  by_cases h : (st.queue.length : Int) ≤ st.currentIndex + 1 <;>
    simp [handleEnd, handleError, h]

/-- C8: building the playback queue under the target-language filter "fr"
yields exactly the fr-tagged paragraphs of the stream, each carrying `idx`
(the originalIndex) equal to its index in the unfiltered stream; for the
stream tagged [en, fr, en, fr] the resulting index sequence is [1, 3]. -/
theorem c8_queue_filtering :
    (∀ pd : List PItem, buildQueue pd "fr".data =
      (pd.enum.filter (fun p => decide (p.2.lang = "fr".data))).map
        (fun p => QItem.mk p.2.text p.2.lang p.1)) ∧
    (buildQueue [⟨"t0".data, "en".data⟩, ⟨"t1".data, "fr".data⟩,
        ⟨"t2".data, "en".data⟩, ⟨"t3".data, "fr".data⟩] "fr".data).map QItem.idx
      = [1, 3] := by
  constructor
  · intro pd
    rw [buildQueue]
    rw [if_neg (by decide), if_pos rfl]
    rw [List.filter_map]
    rfl
  · decide

/-- C9 counterexample: the page-load restore handler (cited by the claim)
adds the playing highlight and scrolls for the saved paragraph even when
that paragraph is tagged "en" (the source language), so highlight-and-scroll
is not triggered only for target-tagged paragraphs. -/
theorem c9_counterexample :
    loadRestore [⟨"hello".data, "en".data⟩, ⟨"world".data, "en".data⟩]
        [false, false] 1 = ([false, true], true) ∧
    ([(⟨"hello".data, "en".data⟩ : PItem), ⟨"world".data, "en".data⟩].getD 1
        default).lang ≠ "fr".data := by
  constructor
  · rw [loadRestore, if_pos (by norm_num)]
    rfl
  · decide

/-- C9 (amended): during playback, `markPlaying` triggers the
highlight-and-scroll side effect only for paragraphs tagged "fr" (the
target language) and leaves the highlights untouched otherwise — but the
page-load restore step highlights and scrolls the saved paragraph
unconditionally, with no language check. -/
theorem c9_amended :
    (∀ (pd : List PItem) (pl : List Bool) (idx : Nat),
      (pd.getD idx default).lang ≠ "fr".data → markPlaying pd pl idx = (pl, false)) ∧
    (∀ (pd : List PItem) (pl : List Bool) (idx : Nat),
      (markPlaying pd pl idx).2 = true → (pd.getD idx default).lang = "fr".data) ∧
    (∀ (pd : List PItem) (pl : List Bool) (saved : Nat),
      0 < saved → saved < pd.length →
      loadRestore pd pl saved = (pl.set saved true, true)) := by
  refine ⟨?_, ?_, ?_⟩
  · intro pd pl idx h
    rw [markPlaying]
    by_cases hi : idx < pd.length
    · rw [if_pos hi, if_neg h]
    · rw [if_neg hi]
  · intro pd pl idx h
    by_cases hl : (pd.getD idx default).lang = "fr".data
    · exact hl
    · rw [markPlaying] at h
      by_cases hi : idx < pd.length
      · rw [if_pos hi, if_neg hl] at h
        exact absurd h (by simp)
      · rw [if_neg hi] at h
        exact absurd h (by simp)
  · intro pd pl saved h1 h2
    rw [loadRestore, if_pos ⟨h1, h2⟩]

/-- C9 witness: the amended theorem applied at a source-tagged paragraph:
markPlaying does not highlight it. -/
theorem c9_witness :
    markPlaying [⟨"a".data, "en".data⟩] [false] 0 = ([false], false) :=
  c9_amended.1 [⟨"a".data, "en".data⟩] [false] 0 (by decide)

/-- C1 counterexample: with three chapter files where the second throws,
the orchestrator loop attempts only files 1 and 2 and completes only
file 1 — file 3 is never attempted, contradicting the claim that files 1
and 3 both end up translated. -/
theorem c1_counterexample :
    (translateEPUBModel [.ok (), .error "boom", .ok ()]).completed = [0] ∧
    (translateEPUBModel [.ok (), .error "boom", .ok ()]).attempted = [0, 1] ∧
    (translateEPUBModel [.ok (), .error "boom", .ok ()]).completed ≠ [0, 2] := by
  refine ⟨rfl, rfl, by decide⟩

/-- C1 (amended): when a chapter file throws, the error is recorded rather
than rethrown immediately and the working directory is still repackaged
unconditionally, with the recorded error raised only after repackaging —
but the catch sits outside the for loop, so the loop stops at the first
failing file: the files before it are translated, the failing file is
attempted and not completed, and the files after it are never attempted. -/
theorem c1_amended (pre post : List (Except String Unit)) (m : String)
    (hpre : ∀ o ∈ pre, o = .ok ()) :
    (translateEPUBModel (pre ++ .error m :: post)).attempted
      = List.range (pre.length + 1) ∧
    (translateEPUBModel (pre ++ .error m :: post)).completed
      = List.range pre.length ∧
    (translateEPUBModel (pre ++ .error m :: post)).repackaged = true ∧
    (translateEPUBModel (pre ++ .error m :: post)).result
      = .error ("Error during file translation: " ++ m) := by
  have h := translationLoopAux_allOk pre (.error m :: post) 0 hpre
  rw [translationLoopAux_error] at h
  refine ⟨?_, ?_, rfl, ?_⟩
  · show (translationLoopAux 0 (pre ++ .error m :: post)).1 = _
    rw [h]
    simp [List.range_succ, List.range_eq_range']
  · show (translationLoopAux 0 (pre ++ .error m :: post)).2.1 = _
    rw [h]
    simp [List.range_eq_range']
  · show (match (translationLoopAux 0 (pre ++ .error m :: post)).2.2 with
      | some m => Except.error m
      | none => Except.ok ()) = _
    rw [h]

/-- C1 witness: the amended theorem at the concrete three-file scenario
(ok, throwing, ok): file 1 completes and the loop records the error. -/
theorem c1_witness :
    (translateEPUBModel ([.ok ()] ++ .error "boom" :: [.ok ()])).completed
      = List.range 1 := by
  have := (c1_amended [.ok ()] [.ok ()] "boom"
    (fun o ho => by simpa using ho)).2.1
  simpa using this

/-- C2 counterexample: on a chapter of 2351 one-character lines the first
chunk takes 2350 lines (4700 bytes) and the hard-coded break at line index
2223 then abandons the last line, so concatenating the chunks does not
reproduce the original line sequence. -/
theorem c2_counterexample :
    ((chunks (List.replicate 2351 ['a'])).getD []).flatten
        ≠ List.replicate 2351 ['a'] ∧
    (List.replicate 2351 (['a'] : Str)).length = 2351 := by
  refine ⟨?_, by rw [List.length_replicate]⟩
  rw [chunks_repl_2351]
  intro hcontra
  have hlen := congrArg List.length hcontra
  simp only [Option.getD_some, List.flatten_cons, List.flatten_nil,
    List.append_nil, List.length_replicate] at hlen
  omega

/-- C2 (amended): for every chapter input of at most 2223 lines in which
every line is shorter than the 4700-byte limit, the chunking loop
terminates, the chunks partition the line sequence — concatenating their
raw lines in order reproduces the original exactly — and every chunk is
within the 4700-byte limit (the single-overlong-line exception never
occurs: an overlong line makes the loop diverge instead, and past 2223
lines the break at index 2222 may drop lines). -/
theorem c2_amended (lines : List Str) (h1 : lines.length ≤ 2223)
    (h2 : ∀ l ∈ lines, l.length < 4700) :
    (chunks lines).isSome = true ∧
    ((chunks lines).getD []).flatten = lines ∧
    ∀ c ∈ (chunks lines).getD [], chunkSize c ≤ 4700 := by
  obtain ⟨cs, hcs, hflat, hsize⟩ :=
    chunkLoopAux_complete (lines.length + 1) 0 lines (by omega) (by omega) h2
  have hc : chunks lines = some cs := hcs
  rw [hc]
  exact ⟨rfl, by simpa using hflat, by simpa using hsize⟩

/-- C2 witness: the amended theorem at a two-line chapter. -/
theorem c2_witness :
    ((chunks [['a'], ['b']]).getD []).flatten = [['a'], ['b']] :=
  (c2_amended [['a'], ['b']] (by norm_num) (by decide)).2.1

/-- C3: at a chapter file whose content is a single line of 4701
characters, the chunking loop never terminates — the inner loop refuses the
overlong line while the chunk is still empty, the line index never
advances, and the outer loop re-enters forever (none for every fuel) — the
line is never placed into a chunk of its own. -/
theorem c3_overlong_line_diverges :
    (∀ fuel : Nat, chunkLoopAux fuel 0 [List.replicate 4701 'a'] = none) ∧
    chunks [List.replicate 4701 'a'] = none := by
  constructor
  · intro fuel
    exact chunkLoopAux_stuck fuel 0 _ [] (by norm_num)
      (by rw [List.length_replicate]; norm_num)
  · exact chunkLoopAux_stuck _ 0 _ [] (by norm_num)
      (by rw [List.length_replicate]; norm_num)

/-- C10 counterexample: a chapter of 2225 one-character lines (more than
2223 lines) fits entirely into one 4450-byte chunk, so the inner loop runs
past index 2222 and no line is dropped — the output is not limited to lines
0 through 2222. -/
theorem c10_counterexample :
    ((chunks (List.replicate 2225 ['a'])).getD []).flatten
        ≠ (List.replicate 2225 ['a']).take 2223 ∧
    2223 < (List.replicate 2225 ['a']).length ∧
    ((chunks (List.replicate 2225 ['a'])).getD []).flatten
      = List.replicate 2225 ['a'] := by
  refine ⟨?_, by rw [List.length_replicate]; norm_num, ?_⟩
  · rw [chunks_repl_2225]
    intro hcontra
    have hlen := congrArg List.length hcontra
    simp only [Option.getD_some, List.flatten_cons, List.flatten_nil,
      List.append_nil, List.length_replicate, List.length_take] at hlen
    omega
  · rw [chunks_repl_2225]
    simp only [Option.getD_some, List.flatten_cons, List.flatten_nil, List.append_nil]

/-- C10 (amended): whenever the chunking loop terminates, the chunks cover
a prefix of the line sequence that always includes at least the first 2223
lines (or all lines when there are fewer); a suffix is dropped only when a
chunk boundary falls past index 2222, so the covered prefix can extend
beyond line 2222 when a chunk straddles it — later lines are not always
absent. -/
theorem c10_amended (lines : List Str) (cs : List (List Str))
    (h : chunks lines = some cs) :
    cs.flatten = lines.take cs.flatten.length ∧
    (cs.flatten.length = lines.length ∨ 2223 ≤ cs.flatten.length) ∧
    min 2223 lines.length ≤ cs.flatten.length := by
  have hcov := chunkLoopAux_coverage (lines.length + 1) 0 lines cs h
  simpa using hcov

/-- C10 witness: the amended theorem at a one-line chapter. -/
theorem c10_witness :
    ([[['a']]] : List (List Str)).flatten
      = [(['a'] : Str)].take ([[['a']]] : List (List Str)).flatten.length :=
  (c10_amended [['a']] [[['a']]] (by decide)).1

/-- C4 counterexample: the reassembly loop stops after 1000 iterations
(originalIndex < 1000), so a chunk whose joined paragraph text has 1001
segments and whose translation also returns 1001 segments produces 1000
pairs, not 1001. -/
theorem c4_counterexample :
    (chunkPairs (List.replicate 1001 ['x'])
        (fun _ => joinNN (List.replicate 1001 ['y']))).length = 1000 ∧
    (List.replicate 1001 (['x'] : Str)).length = 1001 := by
  constructor
  · have hx : splitNN (joinNN (List.replicate 1001 ['x'])) = List.replicate 1001 ['x'] :=
      splitNN_joinNN _
        (List.ne_nil_of_length_pos (by rw [List.length_replicate]; norm_num))
        (by
          intro p hp
          rw [List.eq_of_mem_replicate hp]
          exact ⟨rfl, by decide⟩)
    have hy : splitNN (joinNN (List.replicate 1001 ['y'])) = List.replicate 1001 ['y'] :=
      splitNN_joinNN _
        (List.ne_nil_of_length_pos (by rw [List.length_replicate]; norm_num))
        (by
          intro p hp
          rw [List.eq_of_mem_replicate hp]
          exact ⟨rfl, by decide⟩)
    have hunfold : chunkPairs (List.replicate 1001 ['x'])
          (fun _ => joinNN (List.replicate 1001 ['y']))
        = mergePairs (splitNN (joinNN (List.replicate 1001 ['x'])))
            (splitNN (if (splitNN (joinNN (List.replicate 1001 ['x']))).length ≤ 1
              then [] else joinNN (List.replicate 1001 ['y']))) := rfl
    rw [hx, if_neg (by rw [List.length_replicate]; norm_num), hy] at hunfold
    rw [hunfold, mergePairs_length]
    simp only [List.length_replicate]
    omega
  · rw [List.length_replicate]

/-- C4 (amended): for every chunk whose joined paragraph text has N with
2 ≤ N ≤ 1000 double-newline segments and whose translation splits into
exactly N segments, the reassembly produces exactly N pairs in original
segment order, the k-th pair holding the trimmed k-th translated segment
and the k-th original segment, each rendered as a translated-tagged
element immediately followed by the source-tagged original element; the
loop is capped at 1000 pairs, which the claim as stated omits. -/
theorem c4_amended (ps segs : List Str) (tr : Str → Str)
    (hN2 : 2 ≤ (splitNN (joinNN ps)).length)
    (hcap : (splitNN (joinNN ps)).length ≤ 1000)
    (hsegs : splitNN (tr (joinNN ps)) = segs)
    (hlen : segs.length = (splitNN (joinNN ps)).length) :
    (chunkPairs ps tr).length = (splitNN (joinNN ps)).length ∧
    (∀ k, k < (splitNN (joinNN ps)).length →
      (chunkPairs ps tr).getD k ([], []) =
        (trimStr (segs.getD k []), (splitNN (joinNN ps)).getD k [])) ∧
    (∀ header, (translateChunkModel header ps tr).1
      = renderHeader header ++ renderPairs (chunkPairs ps tr)) ∧
    (translateChunkModel [] ps tr).2 = true := by
  have hunfold : chunkPairs ps tr
      = mergePairs (splitNN (joinNN ps))
          (splitNN (if (splitNN (joinNN ps)).length ≤ 1
            then [] else tr (joinNN ps))) := rfl
  rw [if_neg (by omega), hsegs] at hunfold
  refine ⟨?_, ?_, fun _ => rfl, ?_⟩
  · rw [hunfold, mergePairs_length, hlen, Nat.max_self]
    omega
  · intro k hk
    rw [hunfold, mergePairs_getD _ _ k
      (by rw [mergePairs_length, hlen, Nat.max_self]; omega)]
  · simp only [translateChunkModel, decide_eq_true_eq]
    omega

/-- C4 witness: the amended theorem at a two-paragraph chunk whose
translation returns two segments. -/
theorem c4_witness :
    (chunkPairs ["Hello.".data, "World.".data]
        (fun _ => "Bonjour.\n\nMonde.".data)).length
      = (splitNN (joinNN ["Hello.".data, "World.".data])).length :=
  (c4_amended ["Hello.".data, "World.".data] ["Bonjour.".data, "Monde.".data]
    (fun _ => "Bonjour.\n\nMonde.".data)
    (by decide) (by decide) (by decide) (by decide)).1

/-- C7 counterexample: a chunk that is a bare text line extracts no header
and no paragraphs; translation is indeed skipped, but the chunk is not
passed through — the output is the fixed empty-pair markup, which differs
from the chunk text. -/
theorem c7_counterexample :
    (translateChunkModel [] [] (fun s => s)).2 = false ∧
    (translateChunkModel [] [] (fun s => s)).1 ≠ "hello".data := by
  decide

/-- C7 (amended): for every chunk whose joined paragraph text has at most
one double-newline segment (zero extracted paragraphs, or a single one
with no embedded blank line), the translation capability is never invoked
and the output does not depend on it — but the chunk is not passed
through: the output is the re-attached header scaffold (when a header was
extracted) plus one reassembled pair whose translated element is empty and
whose original element is the joined paragraph text. -/
theorem c7_amended (header : Str) (ps : List Str) (tr tr2 : Str → Str)
    (h : (splitNN (joinNN ps)).length ≤ 1) :
    (translateChunkModel header ps tr).2 = false ∧
    translateChunkModel header ps tr = translateChunkModel header ps tr2 ∧
    (translateChunkModel header ps tr).1 =
      renderHeader header ++ renderPairs [([], (splitNN (joinNN ps)).headD [])] := by
  have hne : splitNN (joinNN ps) ≠ [] := splitNN_ne_nil _
  have hlen1 : (splitNN (joinNN ps)).length = 1 := by
    have : (splitNN (joinNN ps)).length ≠ 0 := by
      intro hz
      exact hne (List.length_eq_zero.mp hz)
    omega
  obtain ⟨a, ha⟩ := List.length_eq_one.mp hlen1
  have hpairs : ∀ trx : Str → Str, chunkPairs ps trx = [([], a)] := by
    intro trx
    have h0 : chunkPairs ps trx
        = mergePairs (splitNN (joinNN ps))
            (splitNN (if (splitNN (joinNN ps)).length ≤ 1
              then [] else trx (joinNN ps))) := rfl
    rw [if_pos h, ha] at h0
    have hsplit : splitNN ([] : Str) = [[]] := rfl
    rw [hsplit] at h0
    have hl : (mergePairs [a] [[]]).length = 1 := by
      rw [mergePairs_length]
      rfl
    obtain ⟨x, hx⟩ := List.length_eq_one.mp hl
    have hval := mergePairs_getD [a] [[]] 0 (by rw [hl]; norm_num)
    rw [hx] at hval
    simp only [List.getD_cons_zero] at hval
    have htrim : trimStr [] = [] := rfl
    rw [htrim] at hval
    rw [h0, hx, hval]
  refine ⟨?_, ?_, ?_⟩
  · simp only [translateChunkModel, decide_eq_true_eq]
    simp only [decide_eq_false_iff_not]
    omega
  · show (renderHeader header ++ renderPairs (chunkPairs ps tr), _)
      = (renderHeader header ++ renderPairs (chunkPairs ps tr2), _)
    rw [hpairs tr, hpairs tr2]
  · show renderHeader header ++ renderPairs (chunkPairs ps tr) = _
    rw [hpairs tr, ha]
    rfl

/-- C7 witness: the amended theorem at an empty extraction — translation
is not invoked. -/
theorem c7_witness :
    (translateChunkModel [] [] (fun s => s)).2 = false :=
  (c7_amended [] [] (fun s => s) (fun s => s) (by decide)).1

theorem chunkPairs_ne_nil (ps : List Str) (tr : Str → Str) :
    chunkPairs ps tr ≠ [] := by
  have h0 : chunkPairs ps tr
      = mergePairs (splitNN (joinNN ps))
          (splitNN (if (splitNN (joinNN ps)).length ≤ 1
            then [] else tr (joinNN ps))) := rfl
  intro hcontra
  rw [h0] at hcontra
  have hlen := congrArg List.length hcontra
  rw [mergePairs_length] at hlen
  have h1 : (splitNN (joinNN ps)).length ≠ 0 := by
    intro hz
    exact splitNN_ne_nil _ (List.length_eq_zero.mp hz)
  simp only [List.length_nil] at hlen
  omega

theorem marker_infix_chunkOut (header : Str) (ps : List Str) (tr : Str → Str) :
    marker <:+: (translateChunkModel header ps tr).1 := by
  obtain ⟨p, rest, hp⟩ := List.exists_cons_of_ne_nil (chunkPairs_ne_nil ps tr)
  have h1 : (translateChunkModel header ps tr).1
      = renderHeader header ++ renderPairs (chunkPairs ps tr) := rfl
  rw [h1, hp]
  show marker <:+: renderHeader header ++ (renderPair p ++ renderPairs rest)
  rw [renderPair]
  simp only [List.append_assoc]
  exact ((List.prefix_append marker _).isInfix).trans
    (List.suffix_append (renderHeader header) _).isInfix

theorem chunks_some_cons (lines : List Str) (cs : List (List Str))
    (hne : lines ≠ []) (h : chunks lines = some cs) :
    ∃ c0 cs2, cs = c0 :: cs2 := by
  rw [chunks, chunkLoopAux_step _ _ _ hne (by norm_num)] at h
  cases hrec : chunkLoopAux lines.length
      (0 + (chunkTakeAux 0 lines).1.length) (chunkTakeAux 0 lines).2 with
  | none => rw [hrec] at h; exact absurd h (by simp)
  | some cs2 =>
    rw [hrec] at h
    exact ⟨(chunkTakeAux 0 lines).1, cs2, (Option.some.inj h).symm⟩

/-- C5: a chapter file whose content already contains the
previously-translated marker is skipped, leaving its content unchanged;
and any content the pipeline writes contains the marker, so an immediate
second run over the written file is a no-op that reports skipped — running
the pipeline twice changes nothing the second time. -/
theorem c5_idempotent :
    (∀ (extract : Str → Str × List Str) (tr : Str → Str) (content : Str),
      hasMarkerB content = true →
      translateFileModel extract tr content = some .skipped ∧
      contentAfter extract tr content = some content) ∧
    (∀ (extract : Str → Str × List Str) (tr : Str → Str) (content out : Str),
      translateFileModel extract tr content = some (.written out) →
      hasMarkerB out = true ∧
      translateFileModel extract tr out = some .skipped ∧
      contentAfter extract tr out = some out) := by
  have hskip : ∀ (e : Str → Str × List Str) (t : Str → Str) (c : Str),
      hasMarkerB c = true → translateFileModel e t c = some .skipped := by
    intro e t c h
    rw [translateFileModel, if_pos h]
  have hafter : ∀ (e : Str → Str × List Str) (t : Str → Str) (c : Str),
      hasMarkerB c = true → contentAfter e t c = some c := by
    intro e t c h
    rw [contentAfter, hskip e t c h]
  refine ⟨fun e t c h => ⟨hskip e t c h, hafter e t c h⟩, ?_⟩
  intro e t c out h
  have hmark : hasMarkerB out = true := by
    rw [translateFileModel] at h
    by_cases hm : hasMarkerB c
    · rw [if_pos hm] at h
      exact absurd (Option.some.inj h) (by simp)
    · rw [if_neg hm] at h
      cases hc : chunks (splitNL c) with
      | none => rw [hc] at h; exact absurd h (by simp)
      | some cs =>
        rw [hc] at h
        have hout := (FileRun.written.inj (Option.some.inj h)).symm
        obtain ⟨c0, cs2, rfl⟩ := chunks_some_cons (splitNL c) cs (splitNL_ne_nil c) hc
        rw [List.map_cons, List.flatten_cons, List.append_assoc] at hout
        rw [hasMarkerB_iff, hout]
        exact (marker_infix_chunkOut (e (chunkStr c0)).1 (e (chunkStr c0)).2 t).trans
          (List.prefix_append _ _).isInfix
  exact ⟨hmark, hskip e t out hmark, hafter e t out hmark⟩

/-- C5 witness: a file whose content is exactly the marker is skipped and
left unchanged. -/
theorem c5_witness :
    translateFileModel (fun _ => ([], [])) (fun s => s) marker = some .skipped :=
  (c5_idempotent.1 (fun _ => ([], [])) (fun s => s) marker (by decide)).1

end Bookworm
